import Mathlib

/-!
# Verification of the CodeScholar parallel beam-search idiom miner

A shallow embedding of the search engine in
`codescholar/search/parallel_search.py`, together with the graph-hash
utilities of `codescholar/utils/search_utils.py` and the containment
predicate `SubgraphEmbedder.predictv2` of
`codescholar/representation/models.py`, and proofs of the specified
properties of seed initialization, frontier expansion, candidate scoring,
ranking, harvesting, termination, and canonical hashing.
-/

namespace CodeScholar

/-! ## Program graphs -/

/-- A program graph as consumed by the search: a directed graph over
integer node ids, each node carrying a source-span string
(the `span` node attribute of the networkx graphs loaded by `read_graph`). -/
structure PGraph where
  nodes : Finset ℕ
  edges : Finset (ℕ × ℕ)
  span : ℕ → String

/-- `graph.successors(v)`: targets of the outgoing edges of `v`. -/
def PGraph.successors (g : PGraph) (v : ℕ) : Finset ℕ :=
  (g.edges.filter (fun e => e.1 = v)).image Prod.snd

/-- `graph.predecessors(v)`: sources of the incoming edges of `v`. -/
def PGraph.predecessors (g : PGraph) (v : ℕ) : Finset ℕ :=
  (g.edges.filter (fun e => e.2 = v)).image Prod.fst

/-- The direction policy of `_frontier` in `parallel_search.py`. -/
inductive FrontierType
  | neigh
  | radial

/-- `_frontier(graph, node, type)`: the one-hop frontier of a node, either
outgoing neighbors only (`'neigh'`, which on a directed graph is the
successor set) or successors union predecessors (`'radial'`). -/
def frontierOf (g : PGraph) (v : ℕ) : FrontierType → Finset ℕ
  | .neigh => g.successors v
  | .radial => g.successors v ∪ g.predecessors v

/-- `graph.nodes[v]['span'].count("#")`: the number of hole markers in a
node's span. -/
def PGraph.spanHoles (g : PGraph) (v : ℕ) : ℕ :=
  (g.span v).toList.count '#'

/-! ## Beams -/

/-- A beam tuple `(score, holes, neigh, frontier, visited, graph_idx)` as
used throughout `parallel_search.py`.  The score is a real number in the
source (a float accumulated by `score_candidate_freq`), modelled as a
rational. -/
structure Beam where
  score : ℚ
  holes : ℤ
  neigh : List ℕ
  frontier : Finset ℕ
  visited : Finset ℕ
  graphIdx : ℕ
deriving DecidableEq

/-- The seed beam built by `init_search_m` for a sampled graph and start
node: `(0, 0, [start], set(neighbors(start)) - {start}, {start}, idx)`. -/
def initBeam (g : PGraph) (idx start : ℕ) : Beam :=
  { score := 0
    holes := 0
    neigh := [start]
    frontier := g.successors start \ {start}
    visited := {start}
    graphIdx := idx }

/-- One accepted candidate expansion from the scoring loop of `grow`: the
candidate node is appended to the neighborhood, the frontier is rebuilt
from the old frontier and the radial frontier of the candidate, the
candidate is added to the visited set, and the hole count is updated by
`span.count("#") - 1`. -/
def growCandidate (g : PGraph) (sc : ℚ) (b : Beam) (cand : ℕ) : Beam :=
  { score := sc
    holes := b.holes + (g.spanHoles cand : ℤ) - 1
    neigh := b.neigh ++ [cand]
    frontier := ((b.frontier ∪ frontierOf g cand .radial) \ b.visited) \ {cand}
    visited := b.visited ∪ {cand}
    graphIdx := b.graphIdx }

/-! ## The scoring loop of `grow`

The scoring oracle (`model.encoder` followed by `score_candidate_freq`) is
abstracted as a function from the candidate node to its score; its value
is irrelevant to the structural properties proved below, and its concrete
realisation is verified separately on `score_candidate_freq`.

`MAX_HOLES` is threaded as a parameter `maxHoles`.
Modelled from the spec: `MAX_HOLES` is referenced by `grow`
(`parallel_search.py:304`) but its defining assignment is not among the
sources under review; the spec describes it only as "a fixed ceiling" on
the hole count, so it is kept abstract here. -/

/-- The per-candidate tail of the scoring loop in `grow`: build the grown
beam, silently skip it (`continue`) when the updated hole count is
negative or exceeds the ceiling, then run `assert new_holes >= 0` and emit
the beam.  `Except.error` marks a raised exception, `Except.ok none` a
silently dropped candidate, `Except.ok (some b)` an emitted beam. -/
def processCandidate (maxHoles : ℤ) (g : PGraph) (sc : ℚ) (b : Beam)
    (cand : ℕ) : Except String (Option Beam) :=
  let b' := growCandidate g sc b cand
  if b'.holes < 0 ∨ maxHoles < b'.holes then Except.ok none
  else if b'.holes < 0 then Except.error "AssertionError"
  else Except.ok (some b')

/-- The scoring loop of `grow` over the frontier candidates of one beam:
candidates are processed in order, a dropped candidate contributes
nothing, and a raised exception would abort the whole beam. -/
def processFrontier (maxHoles : ℤ) (g : PGraph) (scoreOf : ℕ → ℚ)
    (b : Beam) : List ℕ → Except String (List Beam)
  | [] => Except.ok []
  | c :: cs => do
      let r ← processCandidate maxHoles g (scoreOf c) b c
      let rest ← processFrontier maxHoles g scoreOf b cs
      pure (r.toList ++ rest)

/-- The hole-count acceptance test of `grow`, as a pure partial map:
`none` when the candidate is rejected, `some` of the grown beam
otherwise. -/
def pureCandidate (maxHoles : ℤ) (g : PGraph) (sc : ℚ) (b : Beam)
    (cand : ℕ) : Option Beam :=
  let b' := growCandidate g sc b cand
  if b'.holes < 0 ∨ maxHoles < b'.holes then none else some b'

/-- The pure value of the scoring loop over a candidate list. -/
def pureFrontier (maxHoles : ℤ) (g : PGraph) (scoreOf : ℕ → ℚ) (b : Beam)
    (cs : List ℕ) : List Beam :=
  cs.filterMap (fun c => pureCandidate maxHoles g (scoreOf c) b c)

theorem processCandidate_eq_ok (maxHoles : ℤ) (g : PGraph) (sc : ℚ)
    (b : Beam) (cand : ℕ) :
    processCandidate maxHoles g sc b cand =
      Except.ok (pureCandidate maxHoles g sc b cand) := by
  unfold processCandidate pureCandidate
  by_cases h : (growCandidate g sc b cand).holes < 0 ∨
      maxHoles < (growCandidate g sc b cand).holes
  · simp [h]
  · rw [not_or] at h
    simp [h.1, h.2]

theorem processFrontier_eq_ok (maxHoles : ℤ) (g : PGraph) (scoreOf : ℕ → ℚ)
    (b : Beam) (cs : List ℕ) :
    processFrontier maxHoles g scoreOf b cs =
      Except.ok (pureFrontier maxHoles g scoreOf b cs) := by
  induction cs with
  | nil => rfl
  | cons c cs ih =>
      simp only [processFrontier, processCandidate_eq_ok, ih, pureFrontier,
        List.filterMap_cons]
      cases h : pureCandidate maxHoles g (scoreOf c) b c with
      | none => rfl
      | some b' => rfl

/-! ## Ranking and truncation (STEP 3 of `grow`) -/

/-- The sort key of `sorted(new_beams, key=..., reverse=True)` in `grow`:
`x[0]/x[1] if x[1] > 0 else x[0]`, i.e. score divided by hole count,
except that a non-positive hole count falls back to the raw score. -/
def sortKey (b : Beam) : ℚ :=
  if 0 < b.holes then b.score / (b.holes : ℚ) else b.score

/-- The Boolean comparator realising the descending (`reverse=True`)
order on `sortKey`. -/
def beamGE (a b : Beam) : Bool := decide (sortKey b ≤ sortKey a)

/-- STEP 3 of `grow`: sort the scored beams in descending key order and
keep the first `n_beams` of them. -/
def rankTruncate (nBeams : ℕ) (beams : List Beam) : List Beam :=
  (beams.mergeSort beamGE).take nBeams

theorem beamGE_trans (a b c : Beam) (h1 : beamGE a b = true)
    (h2 : beamGE b c = true) : beamGE a c = true := by
  simp only [beamGE, decide_eq_true_eq] at h1 h2 ⊢
  exact le_trans h2 h1

theorem beamGE_total (a b : Beam) : (beamGE a b || beamGE b a) = true := by
  simp only [beamGE, Bool.or_eq_true, decide_eq_true_eq]
  exact (le_total (sortKey b) (sortKey a))

/-! ## The per-beam body of `grow` and one worker task -/

/-- The per-beam body of STEP 1 in `grow`: a beam whose neighborhood has
reached `max_idiom_size` or whose frontier is empty is skipped
(`continue`, contributing no candidates); otherwise every frontier
candidate is scored and processed. -/
def growBeam (maxHoles : ℤ) (maxSize : ℕ) (g : PGraph) (scoreOf : ℕ → ℚ)
    (b : Beam) : List Beam :=
  if maxSize ≤ b.neigh.length ∨ b.frontier = ∅ then []
  else pureFrontier maxHoles g scoreOf b (b.frontier.sort (· ≤ ·))

/-- STEP 1 of `grow` over a whole beam set: the candidates of all beams of
the set are accumulated into one list `new_beams`. -/
def growBeamSet (corpus : ℕ → PGraph) (scoreOf : Beam → ℕ → ℚ)
    (maxHoles : ℤ) (maxSize : ℕ) (beams : List Beam) : List Beam :=
  beams.flatMap (fun b => growBeam maxHoles maxSize (corpus b.graphIdx) (scoreOf b) b)

/-- One worker task of `grow` on a beam set: explore and score all
candidates, sort them in descending key order, truncate to `n_beams`. -/
def workerTask (corpus : ℕ → PGraph) (scoreOf : Beam → ℕ → ℚ)
    (maxHoles : ℤ) (maxSize nBeams : ℕ) (beams : List Beam) : List Beam :=
  rankTruncate nBeams (growBeamSet corpus scoreOf maxHoles maxSize beams)

theorem pureCandidate_eq_some (maxHoles : ℤ) (g : PGraph) (sc : ℚ)
    (b b' : Beam) (cand : ℕ) :
    pureCandidate maxHoles g sc b cand = some b' ↔
      b' = growCandidate g sc b cand ∧
        ¬ (b'.holes < 0 ∨ maxHoles < b'.holes) := by
  unfold pureCandidate
  constructor
  · intro hsome
    by_cases hr : (growCandidate g sc b cand).holes < 0 ∨
        maxHoles < (growCandidate g sc b cand).holes
    · rw [if_pos hr] at hsome
      exact absurd hsome (by simp)
    · rw [if_neg hr] at hsome
      have heq := Option.some.inj hsome
      rw [← heq]
      exact ⟨rfl, hr⟩
  · rintro ⟨hb, hr⟩
    subst hb
    rw [if_neg hr]

theorem mem_growBeam (maxHoles : ℤ) (maxSize : ℕ) (g : PGraph)
    (scoreOf : ℕ → ℚ) (b b' : Beam) :
    b' ∈ growBeam maxHoles maxSize g scoreOf b ↔
      b.neigh.length < maxSize ∧ ∃ cand ∈ b.frontier,
        b' = growCandidate g (scoreOf cand) b cand ∧
        ¬ (b'.holes < 0 ∨ maxHoles < b'.holes) := by
  unfold growBeam
  by_cases h : maxSize ≤ b.neigh.length ∨ b.frontier = ∅
  · simp only [if_pos h, List.not_mem_nil, false_iff, not_and, not_exists]
    intro hlt
    rcases h with h | h
    · exact absurd hlt (not_lt.mpr h)
    · intro c hc
      rw [h] at hc
      exact absurd hc (Finset.not_mem_empty c)
  · have h1 : b.neigh.length < maxSize := not_le.mp (fun hle => h (Or.inl hle))
    rw [if_neg h]
    unfold pureFrontier
    rw [List.mem_filterMap]
    constructor
    · rintro ⟨c, hc, hsome⟩
      obtain ⟨hb, hr⟩ := (pureCandidate_eq_some _ _ _ _ _ _).mp hsome
      exact ⟨h1, c, (Finset.mem_sort _).mp hc, hb, hr⟩
    · rintro ⟨-, c, hc, hb', hr⟩
      exact ⟨c, (Finset.mem_sort _).mpr hc,
        (pureCandidate_eq_some _ _ _ _ _ _).mpr ⟨hb', hr⟩⟩

theorem mem_growBeamSet (corpus : ℕ → PGraph) (scoreOf : Beam → ℕ → ℚ)
    (maxHoles : ℤ) (maxSize : ℕ) (beams : List Beam) (b' : Beam) :
    b' ∈ growBeamSet corpus scoreOf maxHoles maxSize beams ↔
      ∃ b ∈ beams, b.neigh.length < maxSize ∧ ∃ cand ∈ b.frontier,
        b' = growCandidate (corpus b.graphIdx) (scoreOf b cand) b cand ∧
        ¬ (b'.holes < 0 ∨ maxHoles < b'.holes) := by
  unfold growBeamSet
  rw [List.mem_flatMap]
  constructor
  · rintro ⟨b, hb, hmem⟩
    exact ⟨b, hb, (mem_growBeam _ _ _ _ _ _).mp hmem⟩
  · rintro ⟨b, hb, hmem⟩
    exact ⟨b, hb, (mem_growBeam _ _ _ _ _ _).mpr hmem⟩

theorem mem_rankTruncate (nBeams : ℕ) (beams : List Beam) (b : Beam)
    (h : b ∈ rankTruncate nBeams beams) : b ∈ beams := by
  unfold rankTruncate at h
  exact (List.mergeSort_perm beams beamGE).mem_iff.mp (List.mem_of_mem_take h)

/-! ## The generation loop of `search` -/

/-- One generation of the coordinator loop in `search`: every beam set is
grown and pruned by a worker, and exactly the non-empty results seed the
next generation (`if len(new_beams) > 0: new_beam_sets.append(new_beams)`). -/
def genStep (corpus : ℕ → PGraph) (scoreOf : Beam → ℕ → ℚ) (maxHoles : ℤ)
    (maxSize nBeams : ℕ) (beamSets : List (List Beam)) : List (List Beam) :=
  (beamSets.map (workerTask corpus scoreOf maxHoles maxSize nBeams)).filter
    (fun r => !r.isEmpty)

theorem mem_genStep (corpus : ℕ → PGraph) (scoreOf : Beam → ℕ → ℚ)
    (maxHoles : ℤ) (maxSize nBeams : ℕ) (beamSets : List (List Beam))
    (r : List Beam) (h : r ∈ genStep corpus scoreOf maxHoles maxSize nBeams beamSets) :
    ∃ bs ∈ beamSets, r = workerTask corpus scoreOf maxHoles maxSize nBeams bs := by
  unfold genStep at h
  obtain ⟨hmem, -⟩ := List.mem_filter.mp h
  obtain ⟨bs, hbs, hr⟩ := List.mem_map.mp hmem
  exact ⟨bs, hbs, hr.symm⟩

/-! ## Harvesting (the HARVEST step of `search`)

The harvest body of `search` (`parallel_search.py:364-376`) is modelled
with the recording statement read as `idiommine_gen[neigh_g_hash].append(neigh_g)`;
the source text at line 375 closes the subscript bracket with a
parenthesis and therefore does not parse (see the corresponding claim). -/

/-- `graph.subgraph(neigh)`: the node-induced subgraph on the listed
nodes. -/
def PGraph.subgraphOn (g : PGraph) (ns : List ℕ) : PGraph :=
  { nodes := g.nodes.filter (fun v => v ∈ ns)
    edges := g.edges.filter (fun e => e.1 ∈ ns ∧ e.2 ∈ ns)
    span := g.span }

/-- `remove_edges_from(nx.selfloop_edges(...))`: strip self-loop edges. -/
def PGraph.withoutSelfLoops (g : PGraph) : PGraph :=
  { g with edges := g.edges.filter (fun e => e.1 ≠ e.2) }

/-- A harvested subgraph with the anchor marking
(`nodes[v]["anchor"] = 1 if v == neigh[0] else 0`). -/
structure AnchoredGraph where
  graph : PGraph
  anchor : ℕ → Bool

/-- The idiom built from one harvested beam: the induced subgraph over the
beam's neighborhood, self-loops removed, with exactly the first
neighborhood node marked as anchor. -/
def idiomOf (g : PGraph) (b : Beam) : AnchoredGraph :=
  { graph := (g.subgraphOn b.neigh).withoutSelfLoops
    anchor := fun v => v == b.neigh.headD 0 }

/-- The HARVEST step over the collected worker results of one generation:
from each result only the first (top-ranked) beam (`new_beams[:1]`) is
turned into an idiom and recorded under its canonical hash.  The hash
function is a parameter here; its concrete realisation `wl_hash` is
modelled separately. -/
def harvestGen (corpus : ℕ → PGraph) (hashFn : AnchoredGraph → ℕ)
    (results : List (List Beam)) : List (ℕ × AnchoredGraph) :=
  results.flatMap (fun r => (r.take 1).map (fun b =>
    let idm := idiomOf (corpus b.graphIdx) b
    (hashFn idm, idm)))

/-- The seeding of the next generation:
`if len(new_beams) > 0: new_beam_sets.append(new_beams)`. -/
def nextGenSets (results : List (List Beam)) : List (List Beam) :=
  results.filter (fun r => !r.isEmpty)

/-- The generation loop of `search`, with an explicit fuel bound on the
number of generations: dispatch every beam set, collect the worker
results, harvest, and continue with the non-empty results while any beam
set remains. -/
def runGens (corpus : ℕ → PGraph) (scoreOf : Beam → ℕ → ℚ)
    (hashFn : AnchoredGraph → ℕ) (maxHoles : ℤ) (maxSize nBeams : ℕ) :
    ℕ → List (List Beam) → List (ℕ × AnchoredGraph)
  | 0, _ => []
  | _, [] => []
  | fuel + 1, beamSets =>
      let results := beamSets.map (workerTask corpus scoreOf maxHoles maxSize nBeams)
      harvestGen corpus hashFn results ++
        runGens corpus scoreOf hashFn maxHoles maxSize nBeams fuel
          (nextGenSets results)

/-! ## Module-level name resolution of `parallel_search.py`

The names bound at the top level of the module: its imports followed by
its own `def`s, in source order. -/

def parallelSearchNames : List String :=
  ["os", "osp", "argparse", "List", "random", "np", "tqdm", "defaultdict",
   "chain", "torch", "nx", "DiGraphMatcher", "Batch", "stats", "mp",
   "get_simplified_ast", "render_sast", "sast_to_prog", "remove_node",
   "models", "config", "search_config", "sample_programs", "wl_hash",
   "save_idiom", "_print_mine_logs", "_write_mine_logs", "build_model",
   "get_device", "featurize_graph", "nx_to_program_graph",
   "program_graph_to_nx", "perftimer", "yappi",
   "_reduce", "_frontier", "_save_idiom_generation", "read_graph",
   "read_prog", "read_embedding", "read_embeddings", "init_search_m",
   "init_search_g", "start_workers_grow", "score_candidate_freq", "grow",
   "search", "main"]

/-- A Python call through a module-level name: evaluating the name raises
`NameError` when it is not bound in the module; only then is the callee's
value produced. -/
def callByName (name : String) (value : List (List Beam)) :
    Except String (List (List Beam)) :=
  if name ∈ parallelSearchNames then Except.ok value
  else Except.error ("NameError: name " ++ name ++ " is not defined")

/-- The search modes of `parallel_search.py`. -/
inductive Mode
  | m
  | g
  | k
deriving DecidableEq

/-- The init dispatch at the top of `search`: mode `'k'` calls
`init_search_k`, mode `'g'` calls `init_search_g`, any other mode calls
`init_search_m`.  The beam sets the three initializers would build are
parameters (they depend on corpus sampling). -/
def searchInit (mode : Mode) (initk initg initm : List (List Beam)) :
    Except String (List (List Beam)) :=
  match mode with
  | .k => callByName "init_search_k" initk
  | .g => callByName "init_search_g" initg
  | .m => callByName "init_search_m" initm

/-- The `search` driver: run the init dispatch, then the generation loop;
an exception raised by the dispatch propagates out of `search` before any
beam set, idiom, or mine-summary entry is produced. -/
def searchRun (mode : Mode) (initk initg initm : List (List Beam))
    (corpus : ℕ → PGraph) (scoreOf : Beam → ℕ → ℚ)
    (hashFn : AnchoredGraph → ℕ) (maxHoles : ℤ) (maxSize nBeams : ℕ) :
    Except String (List (ℕ × AnchoredGraph)) :=
  (searchInit mode initk initg initm).map
    (runGens corpus scoreOf hashFn maxHoles maxSize nBeams maxSize)

/-! ## The canonical hash (`wl_hash` / `vec_hash` in `search_utils.py`)

After `nx.convert_node_labels_to_integers` the graph lives on the nodes
`0..n-1`; it is modelled on `Fin n`.  `vec_hash` applies, entrywise, the
Python builtin `hash` followed by the xor with the cached per-position
random mask; that integer-to-integer family is abstracted as a parameter
`hmask`, so the invariance below holds for every mask family. -/

/-- An anchored directed graph on the integer labels `0..n-1`, the input
shape of `wl_hash`. -/
structure WGraph (n : ℕ) where
  adj : Fin n → Fin n → Bool
  anchor : Fin n → Bool

/-- `vec_hash(v)`: entrywise `hash(v[i]) ^ cached_masks[i]`. -/
def vecHash (dim : ℕ) (hmask : Fin dim → ℤ → ℤ) (v : Fin dim → ℤ) :
    Fin dim → ℤ :=
  fun i => hmask i (v i)

/-- The initial colour matrix of `wl_hash`: all rows zero except that of
the first anchored node in label order (the loop with `break`), which is
all ones. -/
def wlInit (n dim : ℕ) (g : WGraph n) : Fin n → Fin dim → ℤ :=
  fun v _ =>
    if g.anchor v = true ∧ ∀ w, w < v → g.anchor w = false then 1 else 0

/-- One refinement round of `wl_hash`: each node's row becomes `vec_hash`
of the sum of the rows of its successors (`g.neighbors` on a directed
graph) together with its own row. -/
def wlStep (n dim : ℕ) (hmask : Fin dim → ℤ → ℤ) (g : WGraph n)
    (vecs : Fin n → Fin dim → ℤ) : Fin n → Fin dim → ℤ :=
  fun v => vecHash dim hmask (fun i =>
    (∑ m ∈ Finset.univ.filter (fun m => g.adj v m = true), vecs m i) +
      vecs v i)

/-- `wl_hash(g)`: run `len(g)` refinement rounds from the anchored initial
colours and sum all final rows into one signature vector. -/
def wlHash (n dim : ℕ) (hmask : Fin dim → ℤ → ℤ) (g : WGraph n) :
    Fin dim → ℤ :=
  fun i => ∑ v : Fin n, (wlStep n dim hmask g)^[n] (wlInit n dim g) v i

/-! ## The containment score
(`SubgraphEmbedder.predictv2` and `score_candidate_freq`) -/

/-- `MAX_VIO_DIMS = int(DIM_RATIO * emb_size)` with a ratio of a tenth:
for the 64-dimensional embeddings of the model this is 6. -/
def maxVioDims (embSize : ℕ) : ℕ := embSize / 10

/-- The row-wise containment predicate of `predictv2`: the candidate is
judged a subgraph of the target when strictly fewer than `maxVioDims`
coordinates violate the order constraint (candidate coordinate strictly
above target coordinate). -/
def predictv2row (d : ℕ) (target cand : Fin d → ℚ) : Bool :=
  decide ((Finset.univ.filter (fun j => 0 < cand j - target j)).card <
    maxVioDims d)

/-- `predictv2` over a batch of target embeddings: the per-target
predictions. -/
def predictv2 (d : ℕ) (targets : List (Fin d → ℚ)) (cand : Fin d → ℚ) :
    List Bool :=
  targets.map (fun t => predictv2row d t cand)

/-- `score_candidate_freq`: iterate over `len(embs) // batch_size`
consecutive batches of exactly `batch_size` target embeddings and
accumulate the number of positive predictions of each batch. -/
def score_candidate_freq (batchSize d : ℕ) (embs : List (Fin d → ℚ))
    (cand : Fin d → ℚ) : ℕ :=
  ((List.range (embs.length / batchSize)).map (fun i =>
    (predictv2 d ((embs.drop (i * batchSize)).take batchSize) cand).count
      true)).sum

end CodeScholar

namespace CodeScholar

/-- C2: for every beam with frontier `F`, visited set `V`, and every
candidate node `cand`, the frontier of the grown beam equals
`(F ∪ expand(cand)) − V − {cand}` where `expand(cand)` is the radial
one-hop frontier of `cand`, i.e. the successors union the predecessors of
`cand` in the program graph. -/
theorem grow_new_frontier_eq (g : PGraph) (sc : ℚ) (b : Beam) (cand : ℕ) :
    (growCandidate g sc b cand).frontier =
      ((b.frontier ∪ (g.successors cand ∪ g.predecessors cand)) \ b.visited) \
        {cand} := rfl

/-- C1: after all candidates of a beam set are scored, the surviving
candidate beams are sorted in descending order of `score / holeCount` — a
candidate with hole count `0` being ordered by its raw score, as encoded
in `sortKey` — and the sorted list is truncated to at most `n_beams`
beams before being emitted as the worker's result for the beam set. -/
theorem grow_rank_and_truncate (corpus : ℕ → PGraph)
    (scoreOf : Beam → ℕ → ℚ) (maxHoles : ℤ) (maxSize nBeams : ℕ)
    (beams : List Beam) :
    ∃ s : List Beam,
      s.Perm (growBeamSet corpus scoreOf maxHoles maxSize beams) ∧
      s.Pairwise (fun a b => sortKey b ≤ sortKey a) ∧
      workerTask corpus scoreOf maxHoles maxSize nBeams beams =
        s.take nBeams ∧
      (workerTask corpus scoreOf maxHoles maxSize nBeams beams).length ≤
        nBeams := by
  refine ⟨(growBeamSet corpus scoreOf maxHoles maxSize beams).mergeSort beamGE,
    List.mergeSort_perm _ beamGE, ?_, rfl, ?_⟩
  · have hs := @List.sorted_mergeSort Beam beamGE beamGE_trans beamGE_total
      (growBeamSet corpus scoreOf maxHoles maxSize beams)
    refine hs.imp ?_
    intro a b h
    simpa [beamGE, decide_eq_true_eq] using h
  · simp [workerTask, rankTruncate]

/-- The beams reachable from an `init_search_m` seed beam through the
accepted candidate expansions of `grow`: the size guard, a candidate drawn
from the frontier, and the hole-count acceptance. -/
inductive Reachable (corpus : ℕ → PGraph) (maxHoles : ℤ) (maxSize : ℕ) :
    Beam → Prop
  | init (idx start : ℕ) (hs : start ∈ (corpus idx).nodes) :
      Reachable corpus maxHoles maxSize (initBeam (corpus idx) idx start)
  | step (b : Beam) (cand : ℕ) (sc : ℚ)
      (hb : Reachable corpus maxHoles maxSize b)
      (hsize : b.neigh.length < maxSize)
      (hc : cand ∈ b.frontier)
      (hacc : ¬ ((growCandidate (corpus b.graphIdx) sc b cand).holes < 0 ∨
          maxHoles < (growCandidate (corpus b.graphIdx) sc b cand).holes)) :
      Reachable corpus maxHoles maxSize
        (growCandidate (corpus b.graphIdx) sc b cand)

theorem reachable_visited_invariant (corpus : ℕ → PGraph) (maxHoles : ℤ)
    (maxSize : ℕ) (b : Beam) (h : Reachable corpus maxHoles maxSize b) :
    (∀ v ∈ b.neigh, v ∈ b.visited) ∧ b.frontier ∩ b.visited = ∅ := by
  induction h with
  | init idx start hs =>
      constructor
      · intro v hv
        simp only [initBeam, List.mem_singleton] at hv
        simp [initBeam, hv]
      · ext x
        simp only [initBeam, Finset.mem_inter, Finset.mem_sdiff,
          Finset.mem_singleton, Finset.not_mem_empty, iff_false, not_and]
        tauto
  | step b cand sc hb hsize hc hacc ih =>
      constructor
      · intro v hv
        simp only [growCandidate, List.mem_append, List.mem_singleton] at hv
        rcases hv with hv | hv
        · exact Finset.mem_union_left _ (ih.1 v hv)
        · exact Finset.mem_union_right _ (Finset.mem_singleton.mpr hv)
      · ext x
        simp only [growCandidate, Finset.mem_inter, Finset.mem_sdiff,
          Finset.mem_union, Finset.mem_singleton, Finset.not_mem_empty,
          iff_false, not_and]
        tauto

/-- C3: every beam reachable from an `init_search_m` seed beam by
expansion steps has its neighborhood disjoint from its frontier and its
frontier disjoint from its visited set. -/
theorem reachable_beam_disjoint (corpus : ℕ → PGraph) (maxHoles : ℤ)
    (maxSize : ℕ) (b : Beam) (h : Reachable corpus maxHoles maxSize b) :
    b.neigh.toFinset ∩ b.frontier = ∅ ∧ b.frontier ∩ b.visited = ∅ := by
  obtain ⟨h1, h2⟩ := reachable_visited_invariant corpus maxHoles maxSize b h
  refine ⟨?_, h2⟩
  ext x
  simp only [Finset.mem_inter, List.mem_toFinset, Finset.not_mem_empty,
    iff_false, not_and]
  intro hx hf
  have hxv : x ∈ b.frontier ∩ b.visited :=
    Finset.mem_inter.mpr ⟨hf, h1 x hx⟩
  rw [h2] at hxv
  exact absurd hxv (Finset.not_mem_empty x)

/-- A two-node example graph with the single edge `0 → 1`, used by the
concrete witnesses below. -/
def exGraph : PGraph :=
  { nodes := {0, 1}, edges := {(0, 1)}, span := fun _ => "x" }

/-- Witness for C3: the invariant evaluated on a concrete seed beam. -/
theorem reachable_beam_disjoint_witness :
    (initBeam exGraph 0 0).neigh.toFinset ∩ (initBeam exGraph 0 0).frontier
        = ∅ ∧
      (initBeam exGraph 0 0).frontier ∩ (initBeam exGraph 0 0).visited = ∅ :=
  reachable_beam_disjoint (fun _ => exGraph) 8 5 _
    (Reachable.init 0 0 (by decide))

/-- C6: a candidate whose updated hole count is negative or exceeds the
ceiling is dropped silently (`Except.ok none`, never a raised exception),
and the remaining candidates of the same beam are processed exactly as if
the rejected candidate were absent. -/
theorem out_of_range_candidate_dropped (maxHoles : ℤ) (g : PGraph)
    (scoreOf : ℕ → ℚ) (b : Beam) (cand : ℕ) (xs ys : List ℕ)
    (h : (growCandidate g (scoreOf cand) b cand).holes < 0 ∨
        maxHoles < (growCandidate g (scoreOf cand) b cand).holes) :
    processCandidate maxHoles g (scoreOf cand) b cand = Except.ok none ∧
      processFrontier maxHoles g scoreOf b (xs ++ cand :: ys) =
        processFrontier maxHoles g scoreOf b (xs ++ ys) := by
  have hnone : pureCandidate maxHoles g (scoreOf cand) b cand = none := by
    unfold pureCandidate
    simp [h]
  constructor
  · rw [processCandidate_eq_ok, hnone]
  · rw [processFrontier_eq_ok, processFrontier_eq_ok]
    unfold pureFrontier
    congr 1
    rw [List.filterMap_append, List.filterMap_append]
    congr 1
    simp [List.filterMap_cons, hnone]

/-- Witness for C6: a concrete candidate whose hole count drops to `-1`
is skipped silently and the beam's remaining (empty) candidate list is
unaffected. -/
theorem out_of_range_candidate_dropped_witness :
    processCandidate 8 exGraph 0 (initBeam exGraph 0 0) 1 = Except.ok none ∧
      processFrontier 8 exGraph (fun _ => 0) (initBeam exGraph 0 0) [1] =
        processFrontier 8 exGraph (fun _ => 0) (initBeam exGraph 0 0) [] :=
  out_of_range_candidate_dropped 8 exGraph (fun _ => 0)
    (initBeam exGraph 0 0) 1 [] [] (by decide)

/-- C7: a beam whose neighborhood has reached `max_idiom_size` or whose
frontier is empty is skipped and produces no candidates; every beam
produced by an expansion step extends a beam of the set by exactly one
accepted frontier node, so its neighborhood is one node longer than its
parent's and never exceeds `max_idiom_size`. -/
theorem grow_step_size (corpus : ℕ → PGraph) (scoreOf : Beam → ℕ → ℚ)
    (maxHoles : ℤ) (maxSize : ℕ) (beams : List Beam) :
    (∀ (g : PGraph) (so : ℕ → ℚ) (b : Beam),
        maxSize ≤ b.neigh.length ∨ b.frontier = ∅ →
          growBeam maxHoles maxSize g so b = []) ∧
      (∀ b' ∈ growBeamSet corpus scoreOf maxHoles maxSize beams,
        ∃ b ∈ beams, ∃ cand ∈ b.frontier,
          b'.neigh = b.neigh ++ [cand] ∧
          b'.neigh.length = b.neigh.length + 1 ∧
          b'.neigh.length ≤ maxSize) := by
  constructor
  · intro g so b h
    unfold growBeam
    rw [if_pos h]
  · intro b' hb'
    obtain ⟨b, hb, hlt, cand, hcand, hb'eq, -⟩ :=
      (mem_growBeamSet corpus scoreOf maxHoles maxSize beams b').mp hb'
    refine ⟨b, hb, cand, hcand, ?_, ?_, ?_⟩
    · rw [hb'eq]
      rfl
    · rw [hb'eq]
      simp [growCandidate]
    · rw [hb'eq]
      simp only [growCandidate, List.length_append, List.length_singleton]
      omega

/-- Witness for C7: a concrete beam at the size cap is skipped. -/
theorem grow_step_size_witness :
    growBeam 8 1 exGraph (fun _ => 0) (initBeam exGraph 0 0) = [] :=
  (grow_step_size (fun _ => exGraph) (fun _ _ => 0) 8 1 []).1 exGraph
    (fun _ => 0) (initBeam exGraph 0 0) (Or.inl (by decide))

theorem genStep_nil_of_capped (corpus : ℕ → PGraph)
    (scoreOf : Beam → ℕ → ℚ) (maxHoles : ℤ) (maxSize nBeams : ℕ)
    (beamSets : List (List Beam))
    (h : ∀ bs ∈ beamSets, ∀ b ∈ bs, maxSize ≤ b.neigh.length) :
    genStep corpus scoreOf maxHoles maxSize nBeams beamSets = [] := by
  unfold genStep
  rw [List.filter_eq_nil_iff]
  intro r hr
  obtain ⟨bs, hbs, rfl⟩ := List.mem_map.mp hr
  have hempty : growBeamSet corpus scoreOf maxHoles maxSize bs = [] := by
    unfold growBeamSet
    rw [List.flatMap_eq_nil_iff]
    intro b hb
    unfold growBeam
    rw [if_pos (Or.inl (h bs hbs b hb))]
  simp [workerTask, rankTruncate, hempty]

theorem genStep_iterate_length (corpus : ℕ → PGraph)
    (scoreOf : Beam → ℕ → ℚ) (maxHoles : ℤ) (maxSize nBeams : ℕ)
    (init : List (List Beam))
    (hinit : ∀ bs ∈ init, ∀ b ∈ bs, 1 ≤ b.neigh.length) (k : ℕ) :
    ∀ bs ∈ (genStep corpus scoreOf maxHoles maxSize nBeams)^[k] init,
      ∀ b ∈ bs, k + 1 ≤ b.neigh.length := by
  induction k with
  | zero => simpa using hinit
  | succ k ih =>
      rw [Function.iterate_succ_apply']
      intro bs hbs b hb
      obtain ⟨bs0, hbs0, rfl⟩ :=
        mem_genStep corpus scoreOf maxHoles maxSize nBeams _ bs hbs
      have hb2 := mem_rankTruncate _ _ _ hb
      obtain ⟨bp, hbp, hlt, cand, hcand, heq, -⟩ :=
        (mem_growBeamSet corpus scoreOf maxHoles maxSize bs0 b).mp hb2
      have hlen := ih bs0 hbs0 bp hbp
      rw [heq]
      simp only [growCandidate, List.length_append, List.length_singleton]
      omega

/-- C8: for a positive `max_idiom_size`, the generation loop of `search`
runs out of beam sets after at most `max_idiom_size` generations, whatever
the frontiers do: beams at maximum size yield empty worker results and
their lineages end. -/
theorem search_terminates (corpus : ℕ → PGraph) (scoreOf : Beam → ℕ → ℚ)
    (maxHoles : ℤ) (maxSize nBeams : ℕ) (init : List (List Beam))
    (hinit : ∀ bs ∈ init, ∀ b ∈ bs, 1 ≤ b.neigh.length)
    (hmax : 1 ≤ maxSize) :
    (genStep corpus scoreOf maxHoles maxSize nBeams)^[maxSize] init = [] := by
  obtain ⟨k, rfl⟩ : ∃ k, maxSize = k + 1 := ⟨maxSize - 1, by omega⟩
  rw [Function.iterate_succ_apply']
  apply genStep_nil_of_capped
  intro bs hbs b hb
  have hlen := genStep_iterate_length corpus scoreOf maxHoles (k + 1) nBeams
    init hinit k bs hbs b hb
  omega

/-- Witness for C8: a concrete run from one seed beam on the two-node
example graph is exhausted after `max_idiom_size = 2` generations. -/
theorem search_terminates_witness :
    (genStep (fun _ => exGraph) (fun _ _ => 0) 8 2 1)^[2]
      [[initBeam exGraph 0 0]] = [] :=
  search_terminates (fun _ => exGraph) (fun _ _ => 0) 8 2 1
    [[initBeam exGraph 0 0]] (by decide) (by decide)

/-- An all-zero ten-dimensional embedding, judged to be contained in an
identical target (no coordinate violates the order constraint). -/
def zeroEmb : Fin 10 → ℚ := fun _ => 0

/-- Counterexample to C5: with a pool of three target embeddings and a
batch size of two, only `3 // 2 = 1` batch is scored, so the third target
never contributes, although the containment predicate judges all three
targets to contain the candidate. -/
theorem score_candidate_freq_skips_tail :
    score_candidate_freq 2 10 [zeroEmb, zeroEmb, zeroEmb] zeroEmb = 2 ∧
      (predictv2 10 [zeroEmb, zeroEmb, zeroEmb] zeroEmb).count true = 3 ∧
      score_candidate_freq 2 10 [zeroEmb, zeroEmb, zeroEmb] zeroEmb ≠
        (predictv2 10 [zeroEmb, zeroEmb, zeroEmb] zeroEmb).count true := by
  have hrow : predictv2row 10 zeroEmb zeroEmb = true := by
    simp [predictv2row, zeroEmb, maxVioDims]
  have hscore : score_candidate_freq 2 10 [zeroEmb, zeroEmb, zeroEmb]
      zeroEmb = 2 := by
    simp [score_candidate_freq, predictv2, hrow]
    decide
  have hcount : (predictv2 10 [zeroEmb, zeroEmb, zeroEmb] zeroEmb).count
      true = 3 := by
    simp [predictv2, hrow, List.count_cons]
  refine ⟨hscore, hcount, ?_⟩
  rw [hscore, hcount]
  omega

theorem sum_count_slices (bs k : ℕ) (l : List Bool) :
    ((List.range k).map (fun i =>
      ((l.drop (i * bs)).take bs).count true)).sum =
      (l.take (k * bs)).count true := by
  induction k with
  | zero => simp
  | succ k ih =>
      rw [List.range_succ, List.map_append, List.sum_append]
      simp only [List.map_cons, List.map_nil, List.sum_cons, List.sum_nil,
        add_zero]
      rw [ih, Nat.succ_mul, List.take_add, List.count_append]

/-- C5 (amended): for a positive batch size, the frequency score equals
the number of positive containment judgments over exactly the first
`(len(embs) // batchSize) * batchSize` target embeddings of the pool —
each of those contributes exactly once, while the trailing
`len(embs) mod batchSize` targets never contribute. -/
theorem score_candidate_freq_floored (batchSize d : ℕ)
    (_hbs : 0 < batchSize) (embs : List (Fin d → ℚ)) (cand : Fin d → ℚ) :
    score_candidate_freq batchSize d embs cand =
      (predictv2 d (embs.take (embs.length / batchSize * batchSize))
        cand).count true := by
  unfold score_candidate_freq predictv2
  have hmap : ∀ i : ℕ,
      ((embs.drop (i * batchSize)).take batchSize).map
          (fun t => predictv2row d t cand) =
        ((embs.map (fun t => predictv2row d t cand)).drop
          (i * batchSize)).take batchSize := by
    intro i
    rw [List.map_take, List.map_drop]
  simp only [hmap]
  rw [List.map_take]
  have hlen : embs.length =
      (embs.map (fun t => predictv2row d t cand)).length := by simp
  rw [hlen]
  exact sum_count_slices batchSize _ _

/-- Witness for the amended C5 at the counterexample's concrete input. -/
theorem score_candidate_freq_floored_witness :
    score_candidate_freq 2 10 [zeroEmb, zeroEmb, zeroEmb] zeroEmb =
      (predictv2 10 ([zeroEmb, zeroEmb, zeroEmb].take
        ([zeroEmb, zeroEmb, zeroEmb].length / 2 * 2)) zeroEmb).count true :=
  score_candidate_freq_floored 2 10 (by decide) [zeroEmb, zeroEmb, zeroEmb]
    zeroEmb

/-- C10: in keyword mode the init dispatch of `search` calls
`init_search_k`, a name bound nowhere in the module, so `search` raises a
NameError before any beam set exists, and a keyword-mode run can never
produce beam sets, idioms, or mine-summary entries. -/
theorem keyword_mode_name_error (initk initg initm : List (List Beam))
    (corpus : ℕ → PGraph) (scoreOf : Beam → ℕ → ℚ)
    (hashFn : AnchoredGraph → ℕ) (maxHoles : ℤ) (maxSize nBeams : ℕ) :
    searchInit .k initk initg initm =
        Except.error "NameError: name init_search_k is not defined" ∧
      searchRun .k initk initg initm corpus scoreOf hashFn maxHoles maxSize
          nBeams =
        Except.error "NameError: name init_search_k is not defined" := by
  have h : searchInit Mode.k initk initg initm =
      Except.error "NameError: name init_search_k is not defined" := by
    unfold searchInit callByName
    rw [if_neg (by decide)]
    rfl
  refine ⟨h, ?_⟩
  unfold searchRun
  rw [h]
  rfl

theorem wlInit_of_unique (n dim : ℕ) (g : WGraph n)
    (hu : ∃! v, g.anchor v = true) :
    wlInit n dim g = fun v _ => if g.anchor v = true then 1 else 0 := by
  funext v i
  unfold wlInit
  by_cases h : g.anchor v = true
  · obtain ⟨a, -, hun⟩ := hu
    have hfirst : ∀ w, w < v → g.anchor w = false := by
      intro w hw
      by_contra hcon
      have hw' : g.anchor w = true := by
        cases hanc : g.anchor w with
        | false => exact absurd hanc hcon
        | true => rfl
      rw [hun w hw', hun v h] at hw
      exact absurd hw (lt_irrefl a)
    rw [if_pos ⟨h, hfirst⟩, if_pos h]
  · rw [if_neg (fun hc => h hc.1), if_neg h]

theorem wlStep_equivariant (n dim : ℕ) (hmask : Fin dim → ℤ → ℤ)
    (g1 g2 : WGraph n) (π : Equiv.Perm (Fin n))
    (hadj : ∀ u v, g2.adj (π u) (π v) = g1.adj u v)
    (vecs1 vecs2 : Fin n → Fin dim → ℤ)
    (hvec : ∀ v i, vecs2 (π v) i = vecs1 v i) :
    ∀ v i, wlStep n dim hmask g2 vecs2 (π v) i =
      wlStep n dim hmask g1 vecs1 v i := by
  intro v i
  show hmask i ((∑ m ∈ Finset.univ.filter (fun m => g2.adj (π v) m = true),
        vecs2 m i) + vecs2 (π v) i) =
    hmask i ((∑ m ∈ Finset.univ.filter (fun m => g1.adj v m = true),
        vecs1 m i) + vecs1 v i)
  congr 1
  rw [hvec v i]
  congr 1
  rw [Finset.sum_filter, Finset.sum_filter]
  rw [← Equiv.sum_comp π
    (fun m => if g2.adj (π v) m = true then vecs2 m i else 0)]
  apply Finset.sum_congr rfl
  intro m _
  rw [hadj v m, hvec m i]

theorem wlIter_equivariant (n dim : ℕ) (hmask : Fin dim → ℤ → ℤ)
    (g1 g2 : WGraph n) (π : Equiv.Perm (Fin n))
    (hadj : ∀ u v, g2.adj (π u) (π v) = g1.adj u v)
    (vecs1 vecs2 : Fin n → Fin dim → ℤ)
    (hvec : ∀ v i, vecs2 (π v) i = vecs1 v i) (k : ℕ) :
    ∀ v i, (wlStep n dim hmask g2)^[k] vecs2 (π v) i =
      (wlStep n dim hmask g1)^[k] vecs1 v i := by
  induction k with
  | zero => exact hvec
  | succ k ih =>
      intro v i
      rw [Function.iterate_succ_apply', Function.iterate_succ_apply']
      exact wlStep_equivariant n dim hmask g1 g2 π hadj _ _ ih v i

/-- C9: the canonical signature of `wl_hash` is invariant under every
node relabeling that preserves the adjacency structure and the anchor
role of the single designated anchor node, for every entrywise
hash-and-mask family; in particular it does not depend on the order in
which nodes are presented. -/
theorem wl_hash_perm_invariant (n dim : ℕ) (hmask : Fin dim → ℤ → ℤ)
    (g1 g2 : WGraph n) (π : Equiv.Perm (Fin n))
    (hadj : ∀ u v, g2.adj (π u) (π v) = g1.adj u v)
    (hanc : ∀ v, g2.anchor (π v) = g1.anchor v)
    (hu : ∃! v, g1.anchor v = true) :
    wlHash n dim hmask g1 = wlHash n dim hmask g2 := by
  have hu2 : ∃! v, g2.anchor v = true := by
    obtain ⟨a, ha, hun⟩ := hu
    refine ⟨π a, ?_, ?_⟩
    · show g2.anchor (π a) = true
      rw [hanc a]
      exact ha
    · intro w hw
      have hw2 : g2.anchor w = true := hw
      have hw' : g1.anchor (π.symm w) = true := by
        rw [← hanc (π.symm w), Equiv.apply_symm_apply]
        exact hw2
      have ha' := hun (π.symm w) hw'
      calc w = π (π.symm w) := (Equiv.apply_symm_apply π w).symm
        _ = π a := by rw [ha']
  have hinit : ∀ v i, wlInit n dim g2 (π v) i = wlInit n dim g1 v i := by
    intro v i
    rw [wlInit_of_unique n dim g1 hu, wlInit_of_unique n dim g2 hu2]
    show (if g2.anchor (π v) = true then (1 : ℤ) else 0) =
      (if g1.anchor v = true then (1 : ℤ) else 0)
    rw [hanc v]
  have hfin := wlIter_equivariant n dim hmask g1 g2 π hadj
    (wlInit n dim g1) (wlInit n dim g2) hinit n
  funext i
  unfold wlHash
  rw [← Equiv.sum_comp π
    (fun v => (wlStep n dim hmask g2)^[n] (wlInit n dim g2) v i)]
  apply Finset.sum_congr rfl
  intro v _
  exact (hfin v i).symm

/-- A two-node anchored graph `0 → 1` with anchor `0`. -/
def exW1 : WGraph 2 :=
  { adj := fun u v => decide (u = 0 ∧ v = 1)
    anchor := fun v => decide (v = 0) }

/-- The same graph relabeled through the swap `0 ↔ 1`. -/
def exW2 : WGraph 2 :=
  { adj := fun u v => decide (u = 1 ∧ v = 0)
    anchor := fun v => decide (v = 1) }

/-- Witness for C9: the hash invariance applied to the two-node graph and
the swap relabeling, with the identity hash-and-mask family. -/
theorem wl_hash_perm_invariant_witness :
    wlHash 2 1 (fun _ z => z) exW1 = wlHash 2 1 (fun _ z => z) exW2 :=
  wl_hash_perm_invariant 2 1 (fun _ z => z) exW1 exW2 (Equiv.swap 0 1)
    (by decide) (by decide) ⟨0, by decide, by decide⟩

/-- C4, proved of the modelled harvest (the recording statement read with
the bracket the source misprints at `parallel_search.py:375`): the harvest
of a generation records exactly one idiom per non-empty worker result —
that of the top-ranked beam, independent of all lower-ranked beams of the
result — and a non-empty result seeds the next generation while an empty
result ends its lineage. -/
theorem harvest_top1_elitism (corpus : ℕ → PGraph)
    (hashFn : AnchoredGraph → ℕ) (b : Beam) (bs : List Beam)
    (rs : List (List Beam)) :
    harvestGen corpus hashFn ((b :: bs) :: rs) =
        (hashFn (idiomOf (corpus b.graphIdx) b),
          idiomOf (corpus b.graphIdx) b) :: harvestGen corpus hashFn rs ∧
      harvestGen corpus hashFn ([] :: rs) = harvestGen corpus hashFn rs ∧
      nextGenSets ((b :: bs) :: rs) = (b :: bs) :: nextGenSets rs ∧
      nextGenSets ([] :: rs) = nextGenSets rs := by
  refine ⟨?_, ?_, ?_, ?_⟩ <;> simp [harvestGen, nextGenSets]

end CodeScholar
